import Mathlib

/-!
Shallow embedding of the `caller` package: the parameter-definition and
command-line-compilation engine (`caller/parameters.py`, `caller/defines.py`)
and the application wrapper (`caller/wrappers.py`).

Python values are modelled by the inductive `Value`; a Python `dict` is an
association list in insertion order (`dictInsert` keeps the position of an
existing key, as CPython does); a checker that may raise is a function into
`Option Value`; every distinguishable failure of the engine is a constructor
of `Err`.
-/

namespace Caller

/-- Dynamic Python values, as far as the engine inspects them. -/
inductive Value : Type
  | vstr (s : String)
  | vint (n : Int)
  | vbool (b : Bool)
  | vnone
  deriving DecidableEq, Repr

/-- Python truthiness of a `Value` (`bool(v)`). -/
def Value.truthy : Value → Bool
  | .vstr s => !(s == "")
  | .vint n => !(n == 0)
  | .vbool b => b
  | .vnone => false

/-- Python `str(v)`. -/
def Value.render : Value → String
  | .vstr s => s
  | .vint n => toString n
  | .vbool b => if b then "True" else "False"
  | .vnone => "None"

/-- Failures of the engine.  The first five are typed `CallerError`s raised
by the engine itself; `checkerFailed` stands for an arbitrary exception
escaping a user checker; `stopIteration`, `unboundLocal` and `keyError` are
raw Python runtime errors that some code paths let escape. -/
inductive Err : Type
  | strangeKey (k : String)
  | misplacedPositional
  | tooManyPositionals
  | notEnoughPositionals
  | missingOption (n : String)
  | checkerFailed
  | stopIteration
  | unboundLocal
  | keyError
  deriving DecidableEq, Repr

/-- Whether an `Err` is one of the engine's own typed `CallerError`s. -/
def Err.isCallerError : Err → Bool
  | .strangeKey _ => true
  | .misplacedPositional => true
  | .tooManyPositionals => true
  | .notEnoughPositionals => true
  | .missingOption _ => true
  | _ => false

/-- A parameter definition (`caller/parameters.py`, classes `Parameter`,
`Positional`, `Option`).  `checker` returns `none` when the Python checker
would raise; `stringer` is the rendering function applied to the checker's
output; `is_flag` is `false` for positionals and non-flag options. -/
structure Param : Type where
  name : String
  aliases : List String
  checker : Value → Option Value
  is_required : Bool
  stringer : Value → String
  is_flag : Bool

/-- `Parameter.keys()`: the canonical name followed by the aliases. -/
def Param.keys (p : Param) : List String :=
  p.name :: p.aliases

/-- `Parameter.to_string` / `Option.to_string`: a flag with a falsy value
renders to the empty string without consulting the checker; otherwise the
checker runs on the value and the stringer renders its result.  `none`
models a checker exception escaping. -/
def Param.to_string (p : Param) (v : Value) : Option String :=
  if v.truthy || !p.is_flag then (p.checker v).map p.stringer
  else some ""

/-- The default stringer of a `Positional`: formatter `%(value)s`. -/
def posStringer : Value → String := Value.render

/-- The default stringer of an `Option` named `nm`: formatter
`--%(name)s=%(value)s`. -/
def optStringer (nm : String) : Value → String :=
  fun v => "--" ++ nm ++ "=" ++ v.render

/-- `ParameterDefinitions.__init__` state: the declared positional defines,
the option defines, and the `pos_last_repeat` (globbing) switch. -/
structure ParameterDefinitions : Type where
  positional_defines : List Param
  option_defines : List Param
  pos_last_repeat : Bool

/-- All names and aliases of the positional defines
(`PositionalContainer.keys`). -/
def posKeys (pds : List Param) : List String :=
  pds.flatMap Param.keys

/-- All names and aliases of the option defines. -/
def optKeys (ods : List Param) : List String :=
  ods.flatMap Param.keys

/-- The construction-time duplicate check: construction of
`PositionalContainer` and `ParameterDefinitions` succeeds exactly when no
name or alias is claimed twice. -/
def WellFormed (defs : ParameterDefinitions) : Prop :=
  (posKeys defs.positional_defines ++ optKeys defs.option_defines).Nodup

instance (defs : ParameterDefinitions) : Decidable (WellFormed defs) := by
  unfold WellFormed; infer_instance

/-- The `enumerate` loop of `PositionalContainer.index`, with `i` the index
of the head of the remaining list. -/
def posIndexAux (key : String) : List Param → Nat → Option Nat
  | [], _ => none
  | p :: rest, i =>
    if p.keys.contains key then some i else posIndexAux key rest (i + 1)

/-- `PositionalContainer.index`: index of the first positional define one of
whose keys is `key`; `none` models the `ValueError` branch (which
`checked_values` catches). -/
def posIndex (defs : ParameterDefinitions) (key : String) : Option Nat :=
  posIndexAux key defs.positional_defines 0

/-- First parameter in a list one of whose keys is `key`. -/
def findParam (key : String) : List Param → Option Param
  | [] => none
  | p :: rest => if p.keys.contains key then some p else findParam key rest

/-- The `_named_dict` lookup: positional keys are inserted first, option
keys afterwards (duplicates are a construction error, so first match
suffices). -/
def namedDict (defs : ParameterDefinitions) (key : String) : Option Param :=
  match findParam key defs.positional_defines with
  | some p => some p
  | none => findParam key defs.option_defines

/-- Element `i` of the lazy `gen_defines` generator: each declared define in
turn; past the end, the last define forever when `lastRepeat` is on
(`UnboundLocalError` when there is no define at all), else `StopIteration`. -/
def genDefines (pds : List Param) (lastRepeat : Bool) (i : Nat) : Except Err Param :=
  if h : i < pds.length then .ok (pds.get ⟨i, h⟩)
  else if lastRepeat then
    match pds.getLast? with
    | some p => .ok p
    | none => .error .unboundLocal
  else .error .stopIteration

/-- Lookup in a Python dict modelled as an insertion-ordered association
list. -/
def dictGet (d : List (String × Value)) (k : String) : Option Value :=
  (d.find? (fun kv => kv.1 == k)).map (·.2)

/-- `d[k] = v` on a Python dict: an existing key keeps its position, a new
key is appended. -/
def dictInsert (d : List (String × Value)) (k : String) (v : Value) :
    List (String × Value) :=
  if d.any (fun kv => kv.1 == k) then
    d.map (fun kv => if kv.1 == k then (k, v) else kv)
  else d ++ [(k, v)]

/-- `d.update(new)` on Python dicts. -/
def dictUpdate (d new : List (String × Value)) : List (String × Value) :=
  new.foldl (fun acc kv => dictInsert acc kv.1 kv.2) d

/-- The loop over `named.items()` in `checked_values`: positional keys are
collected (with their slot index) into `nps`; other known keys run their
checker and store the result under the canonical name in `opts`; an unknown
key is the `Strange key` `CallerError`. -/
def processNamed (defs : ParameterDefinitions) :
    List (String × Value) → List (String × Value) → List (Nat × Value) →
    Except Err (List (String × Value) × List (Nat × Value))
  | [], opts, nps => .ok (opts, nps)
  | (k, v) :: rest, opts, nps =>
    match posIndex defs k with
    | some i => processNamed defs rest opts (nps ++ [(i, v)])
    | none =>
      match namedDict defs k with
      | none => .error (.strangeKey k)
      | some ndef =>
        match ndef.checker v with
        | none => .error .checkerFailed
        | some cv => processNamed defs rest (dictInsert opts ndef.name cv) nps

/-- Stable insertion into a list sorted by slot index (equal indices keep
their relative order, as Python's stable sort does). -/
def insertSorted (x : Nat × Value) : List (Nat × Value) → List (Nat × Value)
  | [] => [x]
  | y :: ys => if y.1 ≤ x.1 then y :: insertSorted x ys else x :: y :: ys

/-- `named_poses.sort(key=lambda x: x[0])`: stable sort by slot index. -/
def sortPairs (l : List (Nat × Value)) : List (Nat × Value) :=
  l.foldl (fun acc x => insertSorted x acc) []

/-- The merge loop of `checked_values`: each sorted named positional
overwrites inside the list, appends exactly at the end, and otherwise is the
`Misplaced positional` `CallerError`. -/
def applyNamedPoses (ps : List Value) :
    List (Nat × Value) → Except Err (List Value)
  | [] => .ok ps
  | (i, v) :: rest =>
    if i < ps.length then applyNamedPoses (ps.set i v) rest
    else if i = ps.length then applyNamedPoses (ps ++ [v]) rest
    else .error .misplacedPositional

/-- The final loop of `checked_values`: pull the next define from
`gen_defines` (`StopIteration` becomes the `Too many positionals`
`CallerError`; any other escape propagates) and run its checker. -/
def checkPositionals (defs : ParameterDefinitions) (i : Nat) :
    List Value → Except Err (List Value)
  | [] => .ok []
  | v :: vs =>
    match genDefines defs.positional_defines defs.pos_last_repeat i with
    | .error .stopIteration => .error .tooManyPositionals
    | .error e => .error e
    | .ok pdef =>
      match pdef.checker v with
      | none => .error .checkerFailed
      | some cv =>
        match checkPositionals defs (i + 1) vs with
        | .error e => .error e
        | .ok cvs => .ok (cv :: cvs)

/-- `ParameterDefinitions.checked_values`. -/
def checked_values (defs : ParameterDefinitions) (positionals : List Value)
    (named : List (String × Value)) :
    Except Err (List Value × List (String × Value)) :=
  match processNamed defs named [] [] with
  | .error e => .error e
  | .ok (options, named_poses) =>
    match applyNamedPoses positionals (sortPairs named_poses) with
    | .error e => .error e
    | .ok merged =>
      match checkPositionals defs 0 merged with
      | .error e => .error e
      | .ok poses => .ok (poses, options)

/-- The required-positional loop of `make_cmdline`: `i` counts the defines
already seen, `len` is the length of the resolved positional list. -/
def requiredPosCheck (pds : List Param) (i len : Nat) : Except Err Unit :=
  match pds with
  | [] => .ok ()
  | p :: rest =>
    if p.is_required && len ≤ i then .error .notEnoughPositionals
    else requiredPosCheck rest (i + 1) len

/-- The required-option loop of `make_cmdline`. -/
def requiredOptCheck (ods : List Param) (nd : List (String × Value)) :
    Except Err Unit :=
  match ods with
  | [] => .ok ()
  | o :: rest =>
    if o.is_required && (dictGet nd o.name).isNone then
      .error (.missingOption o.name)
    else requiredOptCheck rest nd

/-- The positional rendering loop of `make_cmdline`: here `next(pdef_iter)`
is not guarded, so `StopIteration` (and `UnboundLocalError`) escape raw. -/
def renderPositionals (defs : ParameterDefinitions) (i : Nat) :
    List Value → Except Err (List String)
  | [] => .ok []
  | v :: vs =>
    match genDefines defs.positional_defines defs.pos_last_repeat i with
    | .error e => .error e
    | .ok pdef =>
      match pdef.to_string v with
      | none => .error .checkerFailed
      | some s =>
        match renderPositionals defs (i + 1) vs with
        | .error e => .error e
        | .ok ss => .ok (s :: ss)

/-- The option rendering loop of `make_cmdline`: each key is looked up in
`_named_dict` (a missing key is a raw `KeyError`) and rendered with
`to_string`. -/
def renderNamed (defs : ParameterDefinitions) :
    List (String × Value) → Except Err (List String)
  | [] => .ok []
  | (k, v) :: rest =>
    match namedDict defs k with
    | none => .error .keyError
    | some ndef =>
      match ndef.to_string v with
      | none => .error .checkerFailed
      | some s =>
        match renderNamed defs rest with
        | .error e => .error e
        | .ok ss => .ok (s :: ss)

/-- `ParameterDefinitions._compile` of `defines.py`:
`tuple(cmd + named_strs + pos_strs)`. -/
def compileCmd (cmd named_strs pos_strs : List String) : List String :=
  cmd ++ named_strs ++ pos_strs

/-- `ParameterDefinitions.make_cmdline`: optional resolution, the two
required-parameter checks, rendering, and `_compile`. -/
def make_cmdline (defs : ParameterDefinitions) (cmd : List String)
    (positionals : List Value) (named : List (String × Value))
    (checked : Bool) : Except Err (List String) :=
  match (if checked then .ok (positionals, named)
         else checked_values defs positionals named) with
  | .error e => .error e
  | .ok (ps, nd) =>
    match requiredPosCheck defs.positional_defines 0 ps.length with
    | .error e => .error e
    | .ok _ =>
      match requiredOptCheck defs.option_defines nd with
      | .error e => .error e
      | .ok _ =>
        match renderPositionals defs 0 ps with
        | .error e => .error e
        | .ok pos_strs =>
          match renderNamed defs nd with
          | .error e => .error e
          | .ok named_strs => .ok (compileCmd cmd named_strs pos_strs)

/-- The mutable session state of `AppWrapper`. -/
structure AppWrapperState : Type where
  positionals : List Value
  options : List (String × Value)
  deriving DecidableEq, Repr

/-- `AppWrapper.set_parameters`: `checked_values` runs first; an exception
escapes before any assignment, so the state is returned untouched together
with the error; on success the positional tuple is replaced and the new
options are merged into the stored mapping with `dict.update`. -/
def set_parameters (defs : ParameterDefinitions) (st : AppWrapperState)
    (positionals : List Value) (named : List (String × Value)) :
    AppWrapperState × Option Err :=
  match checked_values defs positionals named with
  | .error e => (st, some e)
  | .ok (ps, opts) => (⟨ps, dictUpdate st.options opts⟩, none)

/-! Derived notions used to state the properties. -/

/-- The named-positional entries of a mapping: the pairs whose key is a name
or alias of some positional slot, tagged with that slot's index, in mapping
iteration order. -/
def posPairs (defs : ParameterDefinitions) (M : List (String × Value)) :
    List (Nat × Value) :=
  M.filterMap (fun kv => (posIndex defs kv.1).map (fun i => (i, kv.2)))

/-- The canonical names of the option defines. -/
def optNames (defs : ParameterDefinitions) : List String :=
  defs.option_defines.map Param.name

/-- The parameter paired with positional value number `i` when globbing is
on: the declared define at `i`, or the last declared define past the end. -/
def pairedParam (pds : List Param) (hne : pds ≠ []) (i : Nat) : Param :=
  if h : i < pds.length then pds.get ⟨i, h⟩ else pds.getLast hne

/-- Number of required positional slots. -/
def requiredCount (defs : ParameterDefinitions) : Nat :=
  (defs.positional_defines.filter (fun p => p.is_required)).length

/-- A key that is neither a name/alias of a positional slot nor of an
option. -/
def unknownKey (defs : ParameterDefinitions) (k : String) : Bool :=
  (findParam k defs.positional_defines).isNone
    && (findParam k defs.option_defines).isNone

/-- The first entry of the mapping (in iteration order) whose key is
unknown. -/
def firstUnknown (defs : ParameterDefinitions) (M : List (String × Value)) :
    Option String :=
  (M.find? (fun kv => unknownKey defs kv.1)).map (·.1)

/-- The two required-parameter failures of `make_cmdline`. -/
def isMissingRequiredErr (e : Err) : Prop :=
  e = .notEnoughPositionals ∨ ∃ n, e = .missingOption n

/-! Concrete parameter tables used for witnesses and counterexamples. -/

/-- A checker that is not idempotent: it increments integer values. -/
def succChecker : Value → Option Value :=
  fun v => match v with
  | .vint n => some (.vint (n + 1))
  | x => some x

/-- A positional whose checker increments its integer value. -/
def succPos : Param := ⟨"p", [], succChecker, false, posStringer, false⟩

/-- Definitions with the single incrementing positional. -/
def succDefs : ParameterDefinitions := ⟨[succPos], [], false⟩

/-- A flag option with all the defaults of `Option(name, is_flag=True)`. -/
def flagOpt : Param := ⟨"opt", [], some, false, optStringer "opt", true⟩

/-- An option with one alias and the default checker and stringer. -/
def opt1 : Param := ⟨"option1", ["o1"], some, false, optStringer "option1", false⟩

/-- Definitions with no positionals and the single option `option1`. -/
def wDefs : ParameterDefinitions := ⟨[], [opt1], false⟩

/-- A required positional with one alias and the defaults. -/
def pos1 : Param := ⟨"param1", ["p1"], some, true, posStringer, false⟩

/-- An optional positional with one alias and the defaults. -/
def pos2 : Param := ⟨"param2", ["p2"], some, false, posStringer, false⟩

/-- Two positionals and one option, globbing off. -/
def sampleDefs : ParameterDefinitions := ⟨[pos1, pos2], [opt1], false⟩

/-- Two positionals and one option, globbing on. -/
def globDefs : ParameterDefinitions := ⟨[pos1, pos2], [opt1], true⟩

end Caller

/-!  Lookup infrastructure lemmas. -/

namespace Caller

theorem mem_posKeys_iff {pds : List Param} {k : String} :
    k ∈ posKeys pds ↔ ∃ p ∈ pds, k ∈ p.keys := by
  simp [posKeys, List.mem_flatMap]

theorem mem_optKeys_iff {ods : List Param} {k : String} :
    k ∈ optKeys ods ↔ ∃ p ∈ ods, k ∈ p.keys := by
  simp [optKeys, List.mem_flatMap]

theorem findParam_isSome_iff {pds : List Param} {k : String} :
    (findParam k pds).isSome = true ↔ ∃ p ∈ pds, k ∈ p.keys := by
  induction pds with
  | nil => simp [findParam]
  | cons p rest ih =>
    by_cases h : p.keys.contains k
    · simp only [findParam, h, if_pos]
      simp only [Option.isSome_some, true_iff]
      exact ⟨p, List.mem_cons_self p rest, by simpa using h⟩
    · simp only [findParam, h, if_neg, Bool.false_eq_true, ite_false]
      rw [ih]
      constructor
      · rintro ⟨q, hq, hk⟩
        exact ⟨q, List.mem_cons_of_mem p hq, hk⟩
      · rintro ⟨q, hq, hk⟩
        rcases List.mem_cons.mp hq with rfl | hq'
        · exact absurd (by simpa using hk) (by simpa using h)
        · exact ⟨q, hq', hk⟩

theorem findParam_eq_none_iff {pds : List Param} {k : String} :
    findParam k pds = none ↔ ∀ p ∈ pds, k ∉ p.keys := by
  rw [← Option.not_isSome_iff_eq_none, findParam_isSome_iff]
  push_neg
  rfl

theorem findParam_mem {pds : List Param} {k : String} {p : Param}
    (h : findParam k pds = some p) : p ∈ pds ∧ k ∈ p.keys := by
  induction pds with
  | nil => simp [findParam] at h
  | cons q rest ih =>
    by_cases hq : q.keys.contains k
    · simp only [findParam, hq, if_pos, Option.some.injEq] at h
      subst h
      exact ⟨List.mem_cons_self q rest, by simpa using hq⟩
    · simp only [findParam, hq, Bool.false_eq_true, ite_false] at h
      obtain ⟨hm, hk⟩ := ih h
      exact ⟨List.mem_cons_of_mem q hm, hk⟩

theorem findParam_first {ods : List Param} {k : String} {o : Param}
    (hnd : (optKeys ods).Nodup) (ho : o ∈ ods) (hk : k ∈ o.keys) :
    findParam k ods = some o := by
  induction ods with
  | nil => simp at ho
  | cons p rest ih =>
    have hnd' : (p.keys ++ optKeys rest).Nodup := by
      simpa [optKeys] using hnd
    rw [List.nodup_append] at hnd'
    rcases List.mem_cons.mp ho with rfl | ho'
    · simp only [findParam]
      rw [if_pos (by simpa using hk)]
    · have hkrest : k ∈ optKeys rest := mem_optKeys_iff.mpr ⟨o, ho', hk⟩
      have hnp : k ∉ p.keys := fun hmem => hnd'.2.2 hmem hkrest
      simp only [findParam]
      rw [if_neg (by simpa using hnp)]
      exact ih hnd'.2.1 ho'

theorem posIndexAux_eq_none {pds : List Param} {k : String}
    (h : ∀ p ∈ pds, k ∉ p.keys) : ∀ i, posIndexAux k pds i = none := by
  induction pds with
  | nil => intro i; rfl
  | cons p rest ih =>
    intro i
    have hp : ¬ p.keys.contains k = true := by
      simpa using h p (List.mem_cons_self p rest)
    simp only [posIndexAux, hp, ite_false]
    exact ih (fun q hq => h q (List.mem_cons_of_mem p hq)) (i + 1)

theorem posIndexAux_isSome_iff {pds : List Param} {k : String} {i : Nat} :
    (posIndexAux k pds i).isSome = true ↔ ∃ p ∈ pds, k ∈ p.keys := by
  induction pds generalizing i with
  | nil => simp [posIndexAux]
  | cons p rest ih =>
    by_cases h : p.keys.contains k
    · simp only [posIndexAux, h, if_pos, Option.isSome_some, true_iff]
      exact ⟨p, List.mem_cons_self p rest, by simpa using h⟩
    · simp only [posIndexAux, h, Bool.false_eq_true, ite_false]
      rw [ih]
      constructor
      · rintro ⟨q, hq, hk⟩
        exact ⟨q, List.mem_cons_of_mem p hq, hk⟩
      · rintro ⟨q, hq, hk⟩
        rcases List.mem_cons.mp hq with rfl | hq'
        · exact absurd (by simpa using hk) (by simpa using h)
        · exact ⟨q, hq', hk⟩

theorem posIndex_isSome_iff {defs : ParameterDefinitions} {k : String} :
    (posIndex defs k).isSome = true ↔ k ∈ posKeys defs.positional_defines := by
  rw [posIndex, posIndexAux_isSome_iff, mem_posKeys_iff]

theorem WellFormed.optKeys_nodup {defs : ParameterDefinitions}
    (h : WellFormed defs) : (optKeys defs.option_defines).Nodup :=
  ((List.nodup_append.mp h).2.1)

theorem WellFormed.not_pos_of_opt {defs : ParameterDefinitions}
    (h : WellFormed defs) {k : String} (hk : k ∈ optKeys defs.option_defines) :
    k ∉ posKeys defs.positional_defines :=
  fun hp => (List.nodup_append.mp h).2.2 hp hk

end Caller

namespace Caller

theorem posIndex_eq_none_iff {defs : ParameterDefinitions} {k : String} :
    posIndex defs k = none ↔ ∀ p ∈ defs.positional_defines, k ∉ p.keys := by
  rw [← Option.not_isSome_iff_eq_none, posIndex, posIndexAux_isSome_iff]
  push_neg
  rfl

theorem dictGet_isSome_iff {d : List (String × Value)} {k : String} :
    (dictGet d k).isSome = true ↔ k ∈ d.map Prod.fst := by
  have hmap : ∀ o : Option (String × Value),
      (Option.map (fun x => x.2) o).isSome = o.isSome := by
    intro o; cases o <;> rfl
  rw [dictGet, hmap, List.find?_isSome]
  constructor
  · rintro ⟨kv, hm, hp⟩
    exact List.mem_map.mpr ⟨kv, hm, by simpa using hp⟩
  · intro hm
    obtain ⟨kv, hkv, hfst⟩ := List.mem_map.mp hm
    exact ⟨kv, hkv, by simpa using hfst⟩

theorem mem_keys_dictInsert {d : List (String × Value)} {kp k : String}
    {v : Value} (h : k ∈ (dictInsert d kp v).map Prod.fst) :
    k = kp ∨ k ∈ d.map Prod.fst := by
  unfold dictInsert at h
  by_cases hany : d.any (fun kv => kv.1 == kp)
  · rw [if_pos hany, List.map_map] at h
    obtain ⟨kv, hkv, hf⟩ := List.mem_map.mp h
    by_cases hk : kv.1 == kp
    · simp only [Function.comp_apply, hk, if_pos] at hf
      exact Or.inl hf.symm
    · simp only [Function.comp_apply, hk, Bool.false_eq_true, ite_false] at hf
      exact Or.inr (List.mem_map.mpr ⟨kv, hkv, hf⟩)
  · rw [if_neg hany, List.map_append] at h
    rcases List.mem_append.mp h with hl | hr
    · exact Or.inr hl
    · exact Or.inl (by simpa using hr)

theorem dictGet_dictInsert_isSome {d : List (String × Value)} {kp k : String}
    {v : Value} (h : (dictGet (dictInsert d kp v) k).isSome = true) :
    k = kp ∨ (dictGet d k).isSome = true := by
  rw [dictGet_isSome_iff] at h
  rcases mem_keys_dictInsert h with h1 | h2
  · exact Or.inl h1
  · exact Or.inr (dictGet_isSome_iff.mpr h2)

theorem processNamed_poses {defs : ParameterDefinitions} :
    ∀ {M : List (String × Value)} {o n o' n'},
    processNamed defs M o n = .ok (o', n') → n' = n ++ posPairs defs M := by
  intro M
  induction M with
  | nil =>
    intro o n o' n' h
    simp only [processNamed, Except.ok.injEq, Prod.mk.injEq] at h
    simp [posPairs, ← h.2]
  | cons kv rest ih =>
    intro o n o' n' h
    obtain ⟨k, v⟩ := kv
    cases hpi : posIndex defs k with
    | some i =>
      simp only [processNamed, hpi] at h
      have := ih h
      simp only [posPairs, List.filterMap_cons, hpi, Option.map_some] at this ⊢
      simp only [this, List.append_assoc, List.singleton_append]
      rfl
    | none =>
      cases hnd : namedDict defs k with
      | none =>
        simp only [processNamed, hpi, hnd] at h
        exact Except.noConfusion h
      | some ndef =>
        cases hc : ndef.checker v with
        | none =>
          simp only [processNamed, hpi, hnd, hc] at h
          exact Except.noConfusion h
        | some cv =>
          simp only [processNamed, hpi, hnd, hc] at h
          have := ih h
          simpa [posPairs, List.filterMap_cons, hpi] using this

theorem processNamed_opts {defs : ParameterDefinitions} :
    ∀ {M : List (String × Value)} {o n o' n'},
    processNamed defs M o n = .ok (o', n') →
    ∀ k, (dictGet o' k).isSome = true →
      (dictGet o k).isSome = true ∨ k ∈ optNames defs := by
  intro M
  induction M with
  | nil =>
    intro o n o' n' h k hk
    simp only [processNamed, Except.ok.injEq, Prod.mk.injEq] at h
    exact Or.inl (h.1 ▸ hk)
  | cons kv rest ih =>
    intro o n o' n' h k hk
    obtain ⟨k₀, v⟩ := kv
    cases hpi : posIndex defs k₀ with
    | some i =>
      simp only [processNamed, hpi] at h
      exact ih h k hk
    | none =>
      cases hnd : namedDict defs k₀ with
      | none =>
        simp only [processNamed, hpi, hnd] at h
        exact Except.noConfusion h
      | some ndef =>
        cases hc : ndef.checker v with
        | none =>
          simp only [processNamed, hpi, hnd, hc] at h
          exact Except.noConfusion h
        | some cv =>
          simp only [processNamed, hpi, hnd, hc] at h
          rcases ih h k hk with hin | hopt
          · rcases dictGet_dictInsert_isSome hin with rfl | hold
            · refine Or.inr ?_
              have hpos : findParam k₀ defs.positional_defines = none := by
                rw [findParam_eq_none_iff]
                exact posIndex_eq_none_iff.mp hpi
              have hopt2 : findParam k₀ defs.option_defines = some ndef := by
                unfold namedDict at hnd
                rw [hpos] at hnd
                exact hnd
              obtain ⟨hm, _⟩ := findParam_mem hopt2
              exact List.mem_map.mpr ⟨ndef, hm, rfl⟩
            · exact Or.inl hold
          · exact Or.inr hopt

theorem mem_insertSorted {x a : Nat × Value} :
    ∀ {l : List (Nat × Value)}, a ∈ insertSorted x l ↔ a = x ∨ a ∈ l := by
  intro l
  induction l with
  | nil => simp [insertSorted]
  | cons y ys ih =>
    by_cases h : y.1 ≤ x.1
    · simp only [insertSorted, h, if_pos, List.mem_cons, ih]
      tauto
    · simp only [insertSorted, h, ite_false, List.mem_cons]

theorem insertSorted_pairwise {x : Nat × Value} :
    ∀ {l : List (Nat × Value)},
    l.Pairwise (fun a b => a.1 ≤ b.1) →
    (insertSorted x l).Pairwise (fun a b => a.1 ≤ b.1) := by
  intro l
  induction l with
  | nil => intro _; simp [insertSorted]
  | cons y ys ih =>
    intro h
    rw [List.pairwise_cons] at h
    by_cases hyx : y.1 ≤ x.1
    · simp only [insertSorted, hyx, if_pos]
      rw [List.pairwise_cons]
      refine ⟨?_, ih h.2⟩
      intro b hb
      rcases mem_insertSorted.mp hb with rfl | hb'
      · exact hyx
      · exact h.1 b hb'
    · simp only [insertSorted, hyx, ite_false]
      rw [List.pairwise_cons]
      refine ⟨?_, List.pairwise_cons.mpr h⟩
      intro b hb
      rcases List.mem_cons.mp hb with rfl | hb'
      · omega
      · have := h.1 b hb'
        omega

theorem sortPairs_pairwise (l : List (Nat × Value)) :
    (sortPairs l).Pairwise (fun a b => a.1 ≤ b.1) := by
  have main : ∀ (l : List (Nat × Value)) (acc : List (Nat × Value)),
      acc.Pairwise (fun a b => a.1 ≤ b.1) →
      (l.foldl (fun acc x => insertSorted x acc) acc).Pairwise
        (fun a b => a.1 ≤ b.1) := by
    intro l
    induction l with
    | nil => intro acc h; simpa using h
    | cons x xs ih =>
      intro acc h
      exact ih _ (insertSorted_pairwise h)
  exact main l [] (by simp)

end Caller

namespace Caller

theorem optNames_subset_optKeys {defs : ParameterDefinitions} {k : String}
    (h : k ∈ optNames defs) : k ∈ optKeys defs.option_defines := by
  obtain ⟨o, ho, rfl⟩ := List.mem_map.mp h
  exact mem_optKeys_iff.mpr ⟨o, ho, List.mem_cons_self _ _⟩

/-- C1.  Resolution of named positionals: every entry of the named mapping
whose key belongs to a positional slot is kept out of the returned option
mapping; the collected named positionals, sorted into ascending slot-index
order, are merged into the caller's positional list by
overwriting-inside/appending-at-the-end (`applyNamedPoses`), and the
returned positional tuple is the checked result of that merged list. -/
theorem checked_values_named_positionals
    (defs : ParameterDefinitions) (P : List Value) (M : List (String × Value))
    (ps : List Value) (opts : List (String × Value))
    (hwf : WellFormed defs)
    (h : checked_values defs P M = .ok (ps, opts)) :
    (∀ k v, (k, v) ∈ M → k ∈ posKeys defs.positional_defines →
      dictGet opts k = none)
    ∧ (sortPairs (posPairs defs M)).Pairwise (fun a b => a.1 ≤ b.1)
    ∧ ∃ merged, applyNamedPoses P (sortPairs (posPairs defs M)) = .ok merged
        ∧ checkPositionals defs 0 merged = .ok ps := by
  cases hpn : processNamed defs M [] [] with
  | error e => simp [checked_values, hpn] at h
  | ok pair =>
    obtain ⟨opts₀, nps⟩ := pair
    have hnps : nps = posPairs defs M := by
      simpa using processNamed_poses hpn
    cases ham : applyNamedPoses P (sortPairs nps) with
    | error e => simp [checked_values, hpn, ham] at h
    | ok merged =>
      cases hcp : checkPositionals defs 0 merged with
      | error e => simp [checked_values, hpn, ham, hcp] at h
      | ok poses =>
        simp only [checked_values, hpn, ham, hcp, Except.ok.injEq,
          Prod.mk.injEq] at h
        obtain ⟨hps, hopts⟩ := h
        refine ⟨?_, sortPairs_pairwise _, merged, by rw [← hnps]; exact ham,
          by rw [← hps]; exact hcp⟩
        intro k v hmem hkpos
        by_contra hne
        have hsome : (dictGet opts₀ k).isSome = true := by
          rw [hopts]
          exact Option.ne_none_iff_isSome.mp hne
        rcases processNamed_opts hpn k hsome with hbase | hopt
        · simp [dictGet] at hbase
        · exact hwf.not_pos_of_opt (optNames_subset_optKeys hopt) hkpos

/-- Witness for C1 at a concrete table: `p1` is an alias of slot 0, `o1` an
alias of option `option1`. -/
theorem checked_values_named_positionals_witness :
    (∀ k v, (k, v) ∈ [("p1", Value.vstr "x"), ("o1", Value.vstr "y")] →
      k ∈ posKeys sampleDefs.positional_defines →
      dictGet [("option1", Value.vstr "y")] k = none)
    ∧ (sortPairs (posPairs sampleDefs
        [("p1", Value.vstr "x"), ("o1", Value.vstr "y")])).Pairwise
        (fun a b => a.1 ≤ b.1)
    ∧ ∃ merged, applyNamedPoses []
        (sortPairs (posPairs sampleDefs
          [("p1", Value.vstr "x"), ("o1", Value.vstr "y")])) = .ok merged
        ∧ checkPositionals sampleDefs 0 merged = .ok [Value.vstr "x"] :=
  checked_values_named_positionals sampleDefs []
    [("p1", Value.vstr "x"), ("o1", Value.vstr "y")]
    [Value.vstr "x"] [("option1", Value.vstr "y")]
    (by decide) (by rfl)

end Caller

namespace Caller

theorem genDefines_glob {pds : List Param} (hne : pds ≠ []) (i : Nat) :
    genDefines pds true i = .ok (pairedParam pds hne i) := by
  by_cases h : i < pds.length
  · simp [genDefines, pairedParam, h]
  · simp [genDefines, pairedParam, h, List.getLast?_eq_getLast pds hne]

theorem checked_values_nil_named (defs : ParameterDefinitions)
    (P : List Value) :
    checked_values defs P [] =
      match checkPositionals defs 0 P with
      | .error e => .error e
      | .ok poses => .ok (poses, []) := rfl

theorem checkPositionals_cons (defs : ParameterDefinitions) (i : Nat)
    (v : Value) (tl : List Value) :
    checkPositionals defs i (v :: tl) =
      match genDefines defs.positional_defines defs.pos_last_repeat i with
      | .error .stopIteration => .error .tooManyPositionals
      | .error e => .error e
      | .ok pdef =>
        match pdef.checker v with
        | none => .error .checkerFailed
        | some cv =>
          match checkPositionals defs (i + 1) tl with
          | .error e => .error e
          | .ok cvs => .ok (cv :: cvs) := rfl

theorem checkPositionals_glob (defs : ParameterDefinitions)
    (hglob : defs.pos_last_repeat = true)
    (hne : defs.positional_defines ≠ []) :
    ∀ (vs : List Value) (i : Nat),
    (∀ j (hj : j < vs.length),
      ((pairedParam defs.positional_defines hne (i + j)).checker
        (vs.get ⟨j, hj⟩)).isSome = true) →
    ∃ ws, checkPositionals defs i vs = .ok ws ∧ ws.length = vs.length ∧
      ∀ j (hj : j < vs.length),
        (pairedParam defs.positional_defines hne (i + j)).checker
          (vs.get ⟨j, hj⟩) = ws[j]? := by
  intro vs
  induction vs with
  | nil =>
    intro i _
    exact ⟨[], rfl, rfl, fun j hj => by simp at hj⟩
  | cons v tl ih =>
    intro i hacc
    have hgd : genDefines defs.positional_defines defs.pos_last_repeat i
        = .ok (pairedParam defs.positional_defines hne i) := by
      rw [hglob]
      exact genDefines_glob hne i
    have h0 : ((pairedParam defs.positional_defines hne i).checker v).isSome
        = true := by
      simpa using hacc 0 (by simp)
    obtain ⟨cv, hcv⟩ := Option.isSome_iff_exists.mp h0
    obtain ⟨ws, hws, hlen, hvals⟩ := ih (i + 1) (fun j hj => by
      have := hacc (j + 1) (by simpa using Nat.succ_lt_succ hj)
      rw [show i + (j + 1) = (i + 1) + j by omega] at this
      simpa using this)
    refine ⟨cv :: ws, ?_, by simp [hlen], ?_⟩
    · simp only [checkPositionals_cons, hgd, hcv, hws]
    · intro j hj
      cases j with
      | zero => simpa using hcv
      | succ j =>
        have := hvals j (by simpa using Nat.lt_of_succ_lt_succ hj)
        rw [show (i + 1) + j = i + (j + 1) by omega] at this
        simpa using this

theorem checkPositionals_exhaust (defs : ParameterDefinitions)
    (hglob : defs.pos_last_repeat = false) :
    ∀ (vs : List Value) (i : Nat),
    i ≤ defs.positional_defines.length →
    defs.positional_defines.length < i + vs.length →
    (∀ j (hj : j < vs.length) (hij : i + j < defs.positional_defines.length),
      ((defs.positional_defines.get ⟨i + j, hij⟩).checker
        (vs.get ⟨j, hj⟩)).isSome = true) →
    checkPositionals defs i vs = .error .tooManyPositionals := by
  intro vs
  induction vs with
  | nil =>
    intro i h1 h2 _
    exfalso
    simp only [List.length_nil] at h2
    omega
  | cons v tl ih =>
    intro i h1 h2 hacc
    by_cases hlt : i < defs.positional_defines.length
    · have hgd : genDefines defs.positional_defines defs.pos_last_repeat i
          = .ok (defs.positional_defines.get ⟨i, hlt⟩) := by
        rw [hglob]
        simp [genDefines, hlt]
      have h0 : ((defs.positional_defines.get ⟨i, hlt⟩).checker v).isSome
          = true := by
        simpa using hacc 0 (by simp) (by simpa using hlt)
      obtain ⟨cv, hcv⟩ := Option.isSome_iff_exists.mp h0
      have htl := ih (i + 1) (by omega)
        (by simp only [List.length_cons] at h2; omega)
        (fun j hj hij => by
          have hx : i + (j + 1) < defs.positional_defines.length := by omega
          have := hacc (j + 1) (by simpa using Nat.succ_lt_succ hj) hx
          have hgetf : (⟨i + (j + 1), hx⟩ :
              Fin defs.positional_defines.length) = ⟨i + 1 + j, hij⟩ := by
            simp only [Fin.mk.injEq]
            omega
          rw [hgetf] at this
          simpa using this)
      simp only [checkPositionals_cons, hgd, hcv, htl]
    · have hgd : genDefines defs.positional_defines defs.pos_last_repeat i
          = .error .stopIteration := by
        rw [hglob]
        simp [genDefines, hlt]
      simp only [checkPositionals_cons, hgd]

/-- C2.  With globbing off, more positional values than declared slots fail
with the Too Many Positionals error (all checkers up to the declared count
accepting); with globbing on and at least one declared slot, a positional
list of any length at least the required count resolves successfully (all
checkers accepting), and every value past the declared count is paired with
the last declared parameter. -/
theorem checked_values_too_many_and_globbing
    (defs : ParameterDefinitions) (P : List Value) :
    (defs.pos_last_repeat = false →
      defs.positional_defines.length < P.length →
      (∀ i (hi : i < defs.positional_defines.length) (hp : i < P.length),
        ((defs.positional_defines.get ⟨i, hi⟩).checker
          (P.get ⟨i, hp⟩)).isSome = true) →
      checked_values defs P [] = .error .tooManyPositionals)
    ∧ (∀ hne : defs.positional_defines ≠ [],
      defs.pos_last_repeat = true →
      requiredCount defs ≤ P.length →
      (∀ i (hp : i < P.length),
        ((pairedParam defs.positional_defines hne i).checker
          (P.get ⟨i, hp⟩)).isSome = true) →
      ∃ ps, checked_values defs P [] = .ok (ps, [])
        ∧ ps.length = P.length
        ∧ ∀ i (hp : i < P.length), defs.positional_defines.length ≤ i →
            (defs.positional_defines.getLast hne).checker (P.get ⟨i, hp⟩)
              = ps[i]?) := by
  constructor
  · intro hglob hlen hchk
    rw [checked_values_nil_named]
    rw [checkPositionals_exhaust defs hglob P 0 (by omega) (by omega)
      (fun j hj hij => by simpa using hchk j (by simpa using hij) hj)]
  · intro hne hglob _ hchk
    obtain ⟨ws, hws, hlen, hvals⟩ :=
      checkPositionals_glob defs hglob hne P 0
        (fun j hj => by simpa using hchk j hj)
    refine ⟨ws, ?_, hlen, ?_⟩
    · rw [checked_values_nil_named, hws]
    · intro i hp hNi
      have := hvals i hp
      rw [pairedParam, dif_neg (by omega)] at this
      simpa using this

/-- Witness for C2: three values against two declared slots fail without
globbing and succeed with globbing. -/
theorem checked_values_too_many_and_globbing_witness :
    checked_values sampleDefs [Value.vnone, Value.vnone, Value.vnone] []
      = .error .tooManyPositionals
    ∧ ∃ ps, checked_values globDefs [Value.vnone, Value.vnone, Value.vnone] []
        = .ok (ps, []) ∧ ps.length = 3 := by
  constructor
  · exact (checked_values_too_many_and_globbing sampleDefs
      [Value.vnone, Value.vnone, Value.vnone]).1 rfl (by decide)
      (by
        intro i hi hp
        have hb : i < 2 := by simpa [sampleDefs] using hi
        interval_cases i <;> rfl)
  · obtain ⟨ps, h1, h2, _⟩ := (checked_values_too_many_and_globbing globDefs
      [Value.vnone, Value.vnone, Value.vnone]).2
      (by exact List.cons_ne_nil _ _) rfl (by decide)
      (by
        intro i hp
        have hb : i < 3 := by simpa using hp
        interval_cases i <;> rfl)
    exact ⟨ps, h1, by simpa using h2⟩

end Caller

namespace Caller

theorem requiredPosCheck_error {pds : List Param} :
    ∀ {i len : Nat} {e : Err}, requiredPosCheck pds i len = .error e →
    e = .notEnoughPositionals := by
  induction pds with
  | nil => intro i len e h; simp [requiredPosCheck] at h
  | cons p rest ih =>
    intro i len e h
    by_cases hcond : (p.is_required && decide (len ≤ i)) = true
    · simp only [requiredPosCheck, hcond, if_pos, Except.error.injEq] at h
      exact h.symm
    · simp only [requiredPosCheck, hcond, Bool.false_eq_true, ite_false] at h
      exact ih h

theorem requiredPosCheck_ok_iff {pds : List Param} :
    ∀ {i len : Nat}, requiredPosCheck pds i len = .ok () ↔
    ∀ j (hj : j < pds.length),
      (pds.get ⟨j, hj⟩).is_required = true → i + j < len := by
  induction pds with
  | nil => intro i len; simp [requiredPosCheck]
  | cons p rest ih =>
    intro i len
    by_cases hcond : (p.is_required && decide (len ≤ i)) = true
    · simp only [requiredPosCheck, hcond, if_pos]
      rw [Bool.and_eq_true] at hcond
      have hle : len ≤ i := of_decide_eq_true hcond.2
      constructor
      · intro h; exact absurd h (by simp)
      · intro h
        exfalso
        have := h 0 (by simp) (by simpa using hcond.1)
        omega
    · simp only [requiredPosCheck, hcond, Bool.false_eq_true, ite_false]
      rw [ih]
      have hni : p.is_required = true → i < len := by
        intro hreq
        by_contra hnl
        exact hcond (by simp [hreq]; omega)
      constructor
      · intro h j hj hreq
        cases j with
        | zero =>
          have := hni (by simpa using hreq)
          omega
        | succ j =>
          have := h j (by simpa using Nat.lt_of_succ_lt_succ hj)
            (by simpa using hreq)
          omega
      · intro h j hj hreq
        have := h (j + 1) (by simpa using Nat.succ_lt_succ hj)
          (by simpa using hreq)
        omega

theorem requiredOptCheck_error {nd : List (String × Value)} :
    ∀ {ods : List Param} {e : Err}, requiredOptCheck ods nd = .error e →
    ∃ o ∈ ods, e = .missingOption o.name ∧ o.is_required = true
      ∧ dictGet nd o.name = none := by
  intro ods
  induction ods with
  | nil => intro e h; simp [requiredOptCheck] at h
  | cons o rest ih =>
    intro e h
    by_cases hcond : (o.is_required && (dictGet nd o.name).isNone) = true
    · simp only [requiredOptCheck, hcond, if_pos, Except.error.injEq] at h
      rw [Bool.and_eq_true] at hcond
      exact ⟨o, List.mem_cons_self _ _, h.symm, hcond.1,
        Option.isNone_iff_eq_none.mp hcond.2⟩
    · simp only [requiredOptCheck, hcond, Bool.false_eq_true, ite_false] at h
      obtain ⟨o2, hm, he, hreq, hmiss⟩ := ih h
      exact ⟨o2, List.mem_cons_of_mem _ hm, he, hreq, hmiss⟩

theorem requiredOptCheck_ok_iff {nd : List (String × Value)} :
    ∀ {ods : List Param}, requiredOptCheck ods nd = .ok () ↔
    ∀ o ∈ ods, o.is_required = true → (dictGet nd o.name).isSome = true := by
  intro ods
  induction ods with
  | nil => simp [requiredOptCheck]
  | cons o rest ih =>
    by_cases hcond : (o.is_required && (dictGet nd o.name).isNone) = true
    · simp only [requiredOptCheck, hcond, if_pos]
      rw [Bool.and_eq_true] at hcond
      constructor
      · intro h; exact absurd h (by simp)
      · intro h
        exfalso
        have := h o (List.mem_cons_self _ _) hcond.1
        rw [Option.isNone_iff_eq_none.mp hcond.2] at this
        simp at this
    · simp only [requiredOptCheck, hcond, Bool.false_eq_true, ite_false]
      rw [ih]
      constructor
      · intro h o2 hm hreq
        rcases List.mem_cons.mp hm with rfl | hm'
        · by_cases hs : (dictGet nd o2.name).isSome = true
          · exact hs
          · exfalso
            apply hcond
            rw [Bool.and_eq_true]
            refine ⟨hreq, ?_⟩
            rw [Option.isNone_iff_eq_none]
            exact Option.not_isSome_iff_eq_none.mp hs
        · exact h o2 hm' hreq
      · intro h o2 hm hreq
        exact h o2 (List.mem_cons_of_mem _ hm) hreq

theorem genDefines_error {pds : List Param} {b : Bool} {i : Nat} {e : Err}
    (h : genDefines pds b i = .error e) :
    e = .stopIteration ∨ e = .unboundLocal := by
  unfold genDefines at h
  split at h
  · exact absurd h (by simp)
  · split at h
    · split at h
      · exact absurd h (by simp)
      · simp only [Except.error.injEq] at h
        exact Or.inr h.symm
    · simp only [Except.error.injEq] at h
      exact Or.inl h.symm

theorem renderPositionals_cons (defs : ParameterDefinitions) (i : Nat)
    (v : Value) (tl : List Value) :
    renderPositionals defs i (v :: tl) =
      match genDefines defs.positional_defines defs.pos_last_repeat i with
      | .error e => .error e
      | .ok pdef =>
        match pdef.to_string v with
        | none => .error .checkerFailed
        | some s =>
          match renderPositionals defs (i + 1) tl with
          | .error e => .error e
          | .ok ss => .ok (s :: ss) := rfl

theorem renderPositionals_error {defs : ParameterDefinitions} :
    ∀ {vs : List Value} {i : Nat} {e : Err},
    renderPositionals defs i vs = .error e →
    e = .stopIteration ∨ e = .unboundLocal ∨ e = .checkerFailed := by
  intro vs
  induction vs with
  | nil => intro i e h; simp [renderPositionals] at h
  | cons v tl ih =>
    intro i e h
    cases hg : genDefines defs.positional_defines defs.pos_last_repeat i with
    | error e2 =>
      simp only [renderPositionals_cons, hg, Except.error.injEq] at h
      rcases genDefines_error hg with h1 | h2
      · exact Or.inl (h ▸ h1)
      · exact Or.inr (Or.inl (h ▸ h2))
    | ok pdef =>
      cases hts : pdef.to_string v with
      | none =>
        simp only [renderPositionals_cons, hg, hts, Except.error.injEq] at h
        exact Or.inr (Or.inr h.symm)
      | some s =>
        cases hr : renderPositionals defs (i + 1) tl with
        | error e3 =>
          simp only [renderPositionals_cons, hg, hts, hr,
            Except.error.injEq] at h
          exact h ▸ ih hr
        | ok ss =>
          simp only [renderPositionals_cons, hg, hts, hr] at h
          exact Except.noConfusion h

theorem renderNamed_error {defs : ParameterDefinitions} :
    ∀ {nd : List (String × Value)} {e : Err},
    renderNamed defs nd = .error e → e = .keyError ∨ e = .checkerFailed := by
  intro nd
  induction nd with
  | nil => intro e h; simp [renderNamed] at h
  | cons kv rest ih =>
    intro e h
    obtain ⟨k, v⟩ := kv
    cases hnd : namedDict defs k with
    | none =>
      simp only [renderNamed, hnd, Except.error.injEq] at h
      exact Or.inl h.symm
    | some ndef =>
      cases hts : ndef.to_string v with
      | none =>
        simp only [renderNamed, hnd, hts, Except.error.injEq] at h
        exact Or.inr h.symm
      | some s =>
        cases hr : renderNamed defs rest with
        | error e2 =>
          simp only [renderNamed, hnd, hts, hr, Except.error.injEq] at h
          exact h ▸ ih hr
        | ok ss =>
          simp only [renderNamed, hnd, hts, hr] at h
          exact Except.noConfusion h

end Caller

namespace Caller

theorem make_cmdline_checked_eq (defs : ParameterDefinitions)
    (cmd : List String) (P : List Value) (M : List (String × Value)) :
    make_cmdline defs cmd P M true =
      match requiredPosCheck defs.positional_defines 0 P.length with
      | .error e => .error e
      | .ok _ =>
        match requiredOptCheck defs.option_defines M with
        | .error e => .error e
        | .ok _ =>
          match renderPositionals defs 0 P with
          | .error e => .error e
          | .ok pos_strs =>
            match renderNamed defs M with
            | .error e => .error e
            | .ok named_strs => .ok (compileCmd cmd named_strs pos_strs)
    := rfl

/-- C3.  With `checked=True` (values already resolved), `make_cmdline`
fails with one of the two missing-required `CallerError`s exactly when some
required positional slot's index reaches past the resolved positional list,
or some required option's canonical name is absent from the resolved option
mapping; and resolution alone never enforces required-ness: `checked_values`
on entirely empty inputs succeeds for every parameter table. -/
theorem make_cmdline_missing_required_iff (defs : ParameterDefinitions)
    (cmd : List String) (P : List Value) (M : List (String × Value)) :
    ((∃ e, make_cmdline defs cmd P M true = .error e ∧ isMissingRequiredErr e)
      ↔ ((∃ j, ∃ hj : j < defs.positional_defines.length,
            (defs.positional_defines.get ⟨j, hj⟩).is_required = true
            ∧ P.length ≤ j)
         ∨ (∃ o ∈ defs.option_defines, o.is_required = true
            ∧ dictGet M o.name = none)))
    ∧ checked_values defs [] [] = .ok ([], []) := by
  refine ⟨?_, rfl⟩
  cases hrp : requiredPosCheck defs.positional_defines 0 P.length with
  | error e =>
    have he := requiredPosCheck_error hrp
    constructor
    · intro _
      left
      have hnot : ¬ (∀ j (hj : j < defs.positional_defines.length),
          (defs.positional_defines.get ⟨j, hj⟩).is_required = true →
            0 + j < P.length) := by
        intro hall
        have := requiredPosCheck_ok_iff.mpr hall
        rw [hrp] at this
        exact Except.noConfusion this
      push_neg at hnot
      obtain ⟨j, hj, hreq, hge⟩ := hnot
      exact ⟨j, hj, hreq, by omega⟩
    · intro _
      refine ⟨.notEnoughPositionals, ?_, Or.inl rfl⟩
      rw [make_cmdline_checked_eq, hrp, he]
  | ok u =>
    cases u
    have hallpos := requiredPosCheck_ok_iff.mp hrp
    cases hro : requiredOptCheck defs.option_defines M with
    | error e =>
      obtain ⟨o, ho, he, hreq, hmiss⟩ := requiredOptCheck_error hro
      constructor
      · intro _
        exact Or.inr ⟨o, ho, hreq, hmiss⟩
      · intro _
        refine ⟨e, ?_, Or.inr ⟨o.name, he⟩⟩
        rw [make_cmdline_checked_eq, hrp, hro]
    | ok u2 =>
      cases u2
      have halloptions := requiredOptCheck_ok_iff.mp hro
      constructor
      · rintro ⟨e, he, hmr⟩
        exfalso
        rw [make_cmdline_checked_eq, hrp, hro] at he
        cases hrpv : renderPositionals defs 0 P with
        | error e2 =>
          rw [hrpv] at he
          simp only [Except.error.injEq] at he
          rcases renderPositionals_error hrpv with h1 | h2 | h3 <;>
            subst he <;>
            rcases hmr with hmr | ⟨n, hmr⟩ <;>
            simp_all
        | ok ps2 =>
          rw [hrpv] at he
          cases hrn : renderNamed defs M with
          | error e3 =>
            rw [hrn] at he
            simp only [Except.error.injEq] at he
            rcases renderNamed_error hrn with h1 | h2 <;>
              subst he <;>
              rcases hmr with hmr | ⟨n, hmr⟩ <;>
              simp_all
          | ok ns =>
            rw [hrn] at he
            exact Except.noConfusion he
      · rintro (⟨j, hj, hreq, hge⟩ | ⟨o, ho, hreq, hmiss⟩)
        · exfalso
          have := hallpos j hj hreq
          omega
        · exfalso
          have := halloptions o ho hreq
          rw [hmiss] at this
          exact Bool.noConfusion this

end Caller

namespace Caller

theorem make_cmdline_unchecked_eq (defs : ParameterDefinitions)
    (cmd : List String) (P : List Value) (M : List (String × Value)) :
    make_cmdline defs cmd P M false =
      match checked_values defs P M with
      | .error e => .error e
      | .ok (ps, nd) =>
        match requiredPosCheck defs.positional_defines 0 ps.length with
        | .error e => .error e
        | .ok _ =>
          match requiredOptCheck defs.option_defines nd with
          | .error e => .error e
          | .ok _ =>
            match renderPositionals defs 0 ps with
            | .error e => .error e
            | .ok pos_strs =>
              match renderNamed defs nd with
              | .error e => .error e
              | .ok named_strs => .ok (compileCmd cmd named_strs pos_strs)
    := by
  rw [make_cmdline]
  cases checked_values defs P M with
  | error e => rfl
  | ok pair => rfl

/-- C4.  Every successful `make_cmdline` call compiles exactly the command
prefix, then all rendered option fragments, then all rendered positional
fragments, in that fixed order. -/
theorem make_cmdline_options_first (defs : ParameterDefinitions)
    (cmd : List String) (P : List Value) (M : List (String × Value))
    (c : Bool) (out : List String)
    (h : make_cmdline defs cmd P M c = .ok out) :
    ∃ Pr Mr pos_strs named_strs,
      ((c = true ∧ Pr = P ∧ Mr = M)
        ∨ (c = false ∧ checked_values defs P M = .ok (Pr, Mr)))
      ∧ renderPositionals defs 0 Pr = .ok pos_strs
      ∧ renderNamed defs Mr = .ok named_strs
      ∧ out = cmd ++ named_strs ++ pos_strs := by
  cases c with
  | true =>
    cases hrp : requiredPosCheck defs.positional_defines 0 P.length with
    | error e => simp [make_cmdline_checked_eq, hrp] at h
    | ok u =>
      cases u
      cases hro : requiredOptCheck defs.option_defines M with
      | error e => simp [make_cmdline_checked_eq, hrp, hro] at h
      | ok u2 =>
        cases u2
        cases hrpv : renderPositionals defs 0 P with
        | error e => simp [make_cmdline_checked_eq, hrp, hro, hrpv] at h
        | ok pos_strs =>
          cases hrn : renderNamed defs M with
          | error e =>
            simp [make_cmdline_checked_eq, hrp, hro, hrpv, hrn] at h
          | ok named_strs =>
            simp only [make_cmdline_checked_eq, hrp, hro, hrpv, hrn,
              Except.ok.injEq] at h
            exact ⟨P, M, pos_strs, named_strs, Or.inl ⟨rfl, rfl, rfl⟩,
              hrpv, hrn, by rw [← h]; rfl⟩
  | false =>
    cases hcv : checked_values defs P M with
    | error e => simp [make_cmdline_unchecked_eq, hcv] at h
    | ok pair =>
      obtain ⟨Pr, Mr⟩ := pair
      cases hrp : requiredPosCheck defs.positional_defines 0 Pr.length with
      | error e => simp [make_cmdline_unchecked_eq, hcv, hrp] at h
      | ok u =>
        cases u
        cases hro : requiredOptCheck defs.option_defines Mr with
        | error e => simp [make_cmdline_unchecked_eq, hcv, hrp, hro] at h
        | ok u2 =>
          cases u2
          cases hrpv : renderPositionals defs 0 Pr with
          | error e =>
            simp [make_cmdline_unchecked_eq, hcv, hrp, hro, hrpv] at h
          | ok pos_strs =>
            cases hrn : renderNamed defs Mr with
            | error e =>
              simp [make_cmdline_unchecked_eq, hcv, hrp, hro, hrpv, hrn] at h
            | ok named_strs =>
              simp only [make_cmdline_unchecked_eq, hcv, hrp, hro, hrpv, hrn,
                Except.ok.injEq] at h
              exact ⟨Pr, Mr, pos_strs, named_strs, Or.inr ⟨rfl, rfl⟩,
                hrpv, hrn, by rw [← h]; rfl⟩

/-- Witness for C4 at a concrete successful call. -/
theorem make_cmdline_options_first_witness :
    ∃ Pr Mr pos_strs named_strs,
      ((true = true ∧ Pr = ([] : List Value)
          ∧ Mr = ([] : List (String × Value)))
        ∨ (true = false ∧ checked_values wDefs [] [] = .ok (Pr, Mr)))
      ∧ renderPositionals wDefs 0 Pr = .ok pos_strs
      ∧ renderNamed wDefs Mr = .ok named_strs
      ∧ ["cmd"] = ["cmd"] ++ named_strs ++ pos_strs :=
  make_cmdline_options_first wDefs ["cmd"] [] [] true ["cmd"] rfl

/-- Counterexample to C5 as stated: with the incrementing checker,
`checked_values` turns `0` into `1`, but compiling the checked value with
`checked=True` renders `"2"`, not the renderer's output `"1"` on the
once-checked value — the checker runs again inside `to_string`. -/
theorem make_cmdline_twice_checked_counterexample :
    checked_values succDefs [Value.vint 0] [] = .ok ([Value.vint 1], [])
    ∧ make_cmdline succDefs ["cmd"] [Value.vint 1] [] true = .ok ["cmd", "2"]
    ∧ succPos.stringer (Value.vint 1) = "1"
    ∧ ("2" : String) ≠ "1" :=
  ⟨rfl, rfl, rfl, by decide⟩

/-- C5 amended.  `make_cmdline` with `checked=True` skips re-resolution
(`checked_values` is not called), but every rendered fragment comes from
`to_string`, which applies the parameter's checker once more before the
stringer: the compiled fragment for a single positional is the stringer
applied to the re-checked value. -/
theorem make_cmdline_checked_reapplies_checker
    (nm : String) (al : List String) (c : Value → Option Value) (req : Bool)
    (st : Value → String) (cmd : List String) (v : Value) :
    make_cmdline ⟨[⟨nm, al, c, req, st, false⟩], [], false⟩ cmd [v] [] true
      = match c v with
        | some w => .ok (cmd ++ [st w])
        | none => .error .checkerFailed := by
  cases hc : c v with
  | none =>
    simp [make_cmdline_checked_eq, requiredPosCheck, requiredOptCheck,
      renderPositionals, renderNamed, genDefines, Param.to_string,
      compileCmd, hc]
  | some w =>
    simp [make_cmdline_checked_eq, requiredPosCheck, requiredOptCheck,
      renderPositionals, renderNamed, genDefines, Param.to_string,
      compileCmd, hc]

end Caller

namespace Caller

theorem namedDict_eq_none_iff {defs : ParameterDefinitions} {k : String} :
    namedDict defs k = none ↔
    findParam k defs.positional_defines = none
      ∧ findParam k defs.option_defines = none := by
  unfold namedDict
  cases hf : findParam k defs.positional_defines with
  | some p => simp [hf]
  | none => simp [hf]

theorem posIndex_none_iff_findParam {defs : ParameterDefinitions}
    {k : String} :
    posIndex defs k = none ↔ findParam k defs.positional_defines = none := by
  rw [posIndex_eq_none_iff, findParam_eq_none_iff]

theorem unknownKey_iff {defs : ParameterDefinitions} {k : String} :
    unknownKey defs k = true ↔
    posIndex defs k = none ∧ namedDict defs k = none := by
  unfold unknownKey
  rw [Bool.and_eq_true, Option.isNone_iff_eq_none, Option.isNone_iff_eq_none,
    posIndex_none_iff_findParam, namedDict_eq_none_iff]
  tauto

theorem processNamed_strange {defs : ParameterDefinitions} :
    ∀ {M : List (String × Value)} {o : List (String × Value)}
      {n : List (Nat × Value)} {k : String},
    (M.find? (fun kv => unknownKey defs kv.1)).map (fun kv => kv.1) = some k →
    (∀ p ∈ M, ∀ ndef, posIndex defs p.1 = none →
      namedDict defs p.1 = some ndef → (ndef.checker p.2).isSome = true) →
    processNamed defs M o n = .error (.strangeKey k) := by
  intro M
  induction M with
  | nil => intro o n k hfind _; simp at hfind
  | cons kv rest ih =>
    intro o n k hfind hc
    obtain ⟨k₀, v⟩ := kv
    by_cases hu : unknownKey defs k₀ = true
    · rw [List.find?_cons_of_pos _ (by simpa using hu)] at hfind
      simp at hfind
      obtain ⟨hpi, hnd⟩ := unknownKey_iff.mp hu
      subst hfind
      simp [processNamed, hpi, hnd]
    · rw [List.find?_cons_of_neg _ (by simpa using hu)] at hfind
      have hc' : ∀ p ∈ rest, ∀ ndef, posIndex defs p.1 = none →
          namedDict defs p.1 = some ndef →
          (ndef.checker p.2).isSome = true :=
        fun p hp => hc p (List.mem_cons_of_mem _ hp)
      cases hpi : posIndex defs k₀ with
      | some i =>
        simp only [processNamed, hpi]
        exact ih hfind hc'
      | none =>
        cases hnd : namedDict defs k₀ with
        | none =>
          exact absurd (unknownKey_iff.mpr ⟨hpi, hnd⟩) hu
        | some ndef =>
          have hcs := hc (k₀, v) (List.mem_cons_self _ _) ndef hpi hnd
          obtain ⟨cv, hcv⟩ := Option.isSome_iff_exists.mp hcs
          simp only [processNamed, hpi, hnd, hcv]
          exact ih hfind hc'

/-- C6.  A named mapping whose first unknown key (neither a positional nor
an option name/alias) is `k` makes `checked_values` fail with the Strange
Key `CallerError` naming `k` — provided the known option entries before it
pass their checkers. -/
theorem checked_values_unknown_key (defs : ParameterDefinitions)
    (P : List Value) (M : List (String × Value)) (k : String)
    (hk : firstUnknown defs M = some k)
    (hc : ∀ p ∈ M, ∀ ndef, posIndex defs p.1 = none →
      namedDict defs p.1 = some ndef → (ndef.checker p.2).isSome = true) :
    checked_values defs P M = .error (.strangeKey k)
    ∧ k ∉ posKeys defs.positional_defines
    ∧ k ∉ optKeys defs.option_defines
    ∧ Err.isCallerError (.strangeKey k) = true := by
  have hpn := processNamed_strange (o := []) (n := []) hk hc
  have hfacts : posIndex defs k = none ∧ namedDict defs k = none := by
    unfold firstUnknown at hk
    cases hf : M.find? (fun kv => unknownKey defs kv.1) with
    | none => rw [hf] at hk; simp at hk
    | some kv =>
      rw [hf] at hk
      simp at hk
      have := List.find?_some hf
      rw [hk] at this
      exact unknownKey_iff.mp this
  obtain ⟨hpi, hnd⟩ := hfacts
  obtain ⟨hfp, hfo⟩ := namedDict_eq_none_iff.mp hnd
  refine ⟨by simp [checked_values, hpn], ?_, ?_, rfl⟩
  · intro hmem
    obtain ⟨p, hp, hkp⟩ := mem_posKeys_iff.mp hmem
    exact (findParam_eq_none_iff.mp hfp p hp) hkp
  · intro hmem
    obtain ⟨p, hp, hkp⟩ := mem_optKeys_iff.mp hmem
    exact (findParam_eq_none_iff.mp hfo p hp) hkp

/-- Witness for C6: the key `junk` is no name or alias of `sampleDefs`. -/
theorem checked_values_unknown_key_witness :
    checked_values sampleDefs [] [("junk", Value.vnone)]
      = .error (.strangeKey "junk")
    ∧ "junk" ∉ posKeys sampleDefs.positional_defines
    ∧ "junk" ∉ optKeys sampleDefs.option_defines
    ∧ Err.isCallerError (.strangeKey "junk") = true :=
  checked_values_unknown_key sampleDefs [] [("junk", Value.vnone)] "junk"
    rfl
    (by
      intro p hp ndef h1 h2
      simp only [List.mem_singleton] at hp
      subst hp
      exact Option.noConfusion h2)

/-- C7.  For an option reachable under alias `a`, resolving `{a: v}` gives
exactly the same result as resolving `{name: v}`, and on success the
checked value is stored under the canonical name. -/
theorem checked_values_alias_canonical (defs : ParameterDefinitions)
    (P : List Value) (o : Param) (a : String) (v : Value)
    (hwf : WellFormed defs) (ho : o ∈ defs.option_defines)
    (ha : a ∈ o.keys) :
    checked_values defs P [(a, v)] = checked_values defs P [(o.name, v)]
    ∧ ∀ ps opts, checked_values defs P [(a, v)] = .ok (ps, opts) →
        ∃ cv, o.checker v = some cv ∧ opts = [(o.name, cv)] := by
  have key_facts : ∀ k, k ∈ o.keys →
      posIndex defs k = none ∧ namedDict defs k = some o := by
    intro k hk
    have hopt : k ∈ optKeys defs.option_defines :=
      mem_optKeys_iff.mpr ⟨o, ho, hk⟩
    have hnp : k ∉ posKeys defs.positional_defines := hwf.not_pos_of_opt hopt
    have hfp : findParam k defs.positional_defines = none := by
      rw [findParam_eq_none_iff]
      intro p hp hkp
      exact hnp (mem_posKeys_iff.mpr ⟨p, hp, hkp⟩)
    refine ⟨?_, ?_⟩
    · rw [posIndex_none_iff_findParam]
      exact hfp
    · have hfo : findParam k defs.option_defines = some o :=
        findParam_first hwf.optKeys_nodup ho hk
      simp [namedDict, hfp, hfo]
  obtain ⟨hpa, hna⟩ := key_facts a ha
  obtain ⟨hpn, hnn⟩ := key_facts o.name (List.mem_cons_self _ _)
  have hproc : ∀ k, posIndex defs k = none → namedDict defs k = some o →
      processNamed defs [(k, v)] [] [] =
        match o.checker v with
        | none => .error .checkerFailed
        | some cv => .ok ([(o.name, cv)], []) := by
    intro k h1 h2
    cases hcc : o.checker v with
    | none => simp [processNamed, h1, h2, hcc]
    | some cv => simp [processNamed, h1, h2, hcc, dictInsert]
  have e1 := hproc a hpa hna
  have e2 := hproc o.name hpn hnn
  constructor
  · cases hcc : o.checker v with
    | none =>
      rw [hcc] at e1 e2
      simp [checked_values, e1, e2]
    | some cv =>
      rw [hcc] at e1 e2
      simp [checked_values, e1, e2]
  · intro ps opts hok
    cases hcc : o.checker v with
    | none =>
      rw [hcc] at e1
      simp [checked_values, e1] at hok
    | some cv =>
      rw [hcc] at e1
      refine ⟨cv, rfl, ?_⟩
      cases hcp : checkPositionals defs 0 P with
      | error e =>
        simp [checked_values, e1, sortPairs, applyNamedPoses, hcp] at hok
      | ok poses =>
        simp [checked_values, e1, sortPairs, applyNamedPoses, hcp] at hok
        exact hok.2.symm

/-- Witness for C7: alias `o1` of option `option1`. -/
theorem checked_values_alias_canonical_witness :
    checked_values wDefs [] [("o1", Value.vstr "Yo")]
      = checked_values wDefs [] [("option1", Value.vstr "Yo")]
    ∧ ∀ ps opts,
        checked_values wDefs [] [("o1", Value.vstr "Yo")] = .ok (ps, opts) →
        ∃ cv, opt1.checker (Value.vstr "Yo") = some cv
          ∧ opts = [(opt1.name, cv)] :=
  checked_values_alias_canonical wDefs [] opt1 "o1" (Value.vstr "Yo")
    (by decide) (by simp [wDefs]) (by decide)

end Caller

namespace Caller

/-- Counterexample to C8 as stated: an `Option` with `is_flag=True` and the
default formatter renders a truthy value as `--opt=1`, keeping the
`=value` part (matching the class's own doctest), not as a bare `--opt`. -/
theorem flag_truthy_renders_value_counterexample :
    flagOpt.is_flag = true
    ∧ (Value.vint 1).truthy = true
    ∧ flagOpt.to_string (Value.vint 1) = some "--opt=1"
    ∧ ("--opt=1" : String) ≠ "--opt" :=
  ⟨rfl, rfl, rfl, by decide⟩

/-- C8 amended.  A flag option with the default formatter renders a falsy
value to the empty fragment (without running the checker), and renders a
truthy value through the default option formatter `--name=value`, with the
`=value` part present. -/
theorem flag_to_string_amended (nm : String) (al : List String)
    (c : Value → Option Value) (req : Bool) (v : Value) :
    (v.truthy = false →
      (⟨nm, al, c, req, optStringer nm, true⟩ : Param).to_string v = some "")
    ∧ (∀ w, v.truthy = true → c v = some w →
      (⟨nm, al, c, req, optStringer nm, true⟩ : Param).to_string v
        = some ("--" ++ nm ++ "=" ++ w.render)) := by
  constructor
  · intro ht
    simp [Param.to_string, ht]
  · intro w ht hc
    simp [Param.to_string, ht, hc, optStringer]

/-- Witness for C8 amended at the default flag option. -/
theorem flag_to_string_amended_witness :
    flagOpt.to_string (Value.vint 0) = some ""
    ∧ flagOpt.to_string (Value.vint 1)
      = some ("--" ++ "opt" ++ "=" ++ (Value.vint 1).render) := by
  constructor
  · exact (flag_to_string_amended "opt" [] some false (Value.vint 0)).1 rfl
  · exact (flag_to_string_amended "opt" [] some false (Value.vint 1)).2
      (Value.vint 1) rfl rfl

/-- Counterexample to C9 as stated: after a successful `set_parameters`
whose resolution produced an empty option mapping, the previously stored
option entry is still present — `set_parameters` merges with
`dict.update`, it does not replace the whole mapping. -/
theorem set_parameters_update_counterexample :
    checked_values wDefs [] [] = .ok ([], [])
    ∧ (set_parameters wDefs ⟨[], [("option1", Value.vstr "a")]⟩ [] []).1
        = ⟨[], [("option1", Value.vstr "a")]⟩
    ∧ [("option1", Value.vstr "a")] ≠ ([] : List (String × Value)) :=
  ⟨rfl, rfl, by decide⟩

/-- C9 amended.  A `set_parameters` call whose resolution fails returns the
stored state untouched; a successful call replaces the stored positional
tuple with the newly resolved one but merges the newly resolved option
mapping into the stored one with `dict.update`, so entries from earlier
calls survive unless overwritten. -/
theorem set_parameters_amended (defs : ParameterDefinitions)
    (st : AppWrapperState) (P : List Value) (M : List (String × Value)) :
    (∀ e, checked_values defs P M = .error e →
      set_parameters defs st P M = (st, some e))
    ∧ (∀ ps opts, checked_values defs P M = .ok (ps, opts) →
      set_parameters defs st P M
        = (⟨ps, dictUpdate st.options opts⟩, none)) := by
  constructor
  · intro e h
    simp [set_parameters, h]
  · intro ps opts h
    simp [set_parameters, h]

/-- Witness for C9 amended: a failing and a succeeding call. -/
theorem set_parameters_amended_witness :
    set_parameters wDefs ⟨[], []⟩ [] [("nope", Value.vnone)]
      = (⟨[], []⟩, some (.strangeKey "nope"))
    ∧ set_parameters wDefs ⟨[], [("option1", Value.vstr "a")]⟩ [] []
      = (⟨[], dictUpdate [("option1", Value.vstr "a")] []⟩, none) := by
  constructor
  · exact (set_parameters_amended wDefs ⟨[], []⟩ []
      [("nope", Value.vnone)]).1 (.strangeKey "nope") rfl
  · exact (set_parameters_amended wDefs
      ⟨[], [("option1", Value.vstr "a")]⟩ [] []).2 [] [] rfl

/-- C10.  With an empty positional sequence and globbing on, the first
element of the lazy slot sequence is an unbound-local error rather than a
parameter or exhaustion, so any `checked_values` or `make_cmdline` call
that has at least one positional value to walk fails with that error. -/
theorem genDefines_empty_globbing :
    genDefines ([] : List Param) true 0 = .error .unboundLocal
    ∧ (∀ (v : Value) (P : List Value),
        checked_values ⟨[], [], true⟩ (v :: P) [] = .error .unboundLocal)
    ∧ (∀ (cmd : List String) (v : Value) (P : List Value),
        make_cmdline ⟨[], [], true⟩ cmd (v :: P) [] true
          = .error .unboundLocal) :=
  ⟨rfl, fun _ _ => rfl, fun _ _ _ => rfl⟩

end Caller
